import Mathlib

/-!
Verification of the lottery statistics engine (`function/calculate_stats.py`).

The Python source is shallowly embedded below: frequency dictionaries become
association lists kept in insertion order (matching CPython's order-preserving
`dict` / `defaultdict`), Python's stable `sorted(..., reverse=True)` becomes an
explicitly stable insertion sort, and the two bounded retry loops of the
combination optimizers become structurally recursive functions whose fuel is
the source's `max_attempts = 100` bound.  The single implementation-defined
operation in the source — `next(iter(available_numbers))` on a Python `set` in
`find_optimized_numbers_by_general_frequency` — is modelled by an explicit
`pick` oracle parameter.
-/

namespace LotteryStats

/-- Ascending insertion, used to model Python's `sorted` on lists of ints. -/
def insertAsc (a : Nat) : List Nat → List Nat
  | [] => [a]
  | b :: l => if a ≤ b then a :: b :: l else b :: insertAsc a l

/-- Model of Python's `sorted` on a list of ints (ascending). -/
def sortAsc (l : List Nat) : List Nat := l.foldr insertAsc []

/-- Stable descending insertion by the second component (the count).
An element is inserted after every element with a strictly larger count and
before every element with an equal or smaller count, so earlier elements of
the original list come first among equal counts. -/
def insertDesc (a : Nat × Nat) : List (Nat × Nat) → List (Nat × Nat)
  | [] => [a]
  | b :: l => if a.2 < b.2 then b :: insertDesc a l else a :: b :: l

/-- Model of Python's stable `sorted(items, key=lambda x: x[1], reverse=True)`:
a stable sort, descending by count.  A stable sort for a fixed comparison key is
unique, so this insertion sort computes exactly CPython's output. -/
def stableSortDesc (l : List (Nat × Nat)) : List (Nat × Nat) := l.foldr insertDesc []

/-- A frequency dictionary: an association list `number ↦ count` in insertion
order, modelling a CPython `dict`/`defaultdict(int)` (which preserves insertion
order). -/
abbrev FreqMap := List (Nat × Nat)

/-- The keys of a frequency dictionary, in insertion order. -/
def keys (m : FreqMap) : List Nat := m.map (·.1)

/-- Model of `d[k] += 1` on a `defaultdict(int)`: an existing key is updated in
place (its position is unchanged), a missing key is appended with count 1. -/
def bump (m : FreqMap) (k : Nat) : FreqMap :=
  if m.any (fun p => p.1 == k) then
    m.map (fun p => if p.1 == k then (p.1, p.2 + 1) else p)
  else m ++ [(k, 1)]

/-- Model of `d.get(k)` (`None` when absent). -/
def lookupVal (m : FreqMap) (k : Nat) : Option Nat :=
  (m.find? (fun p => p.1 == k)).map (·.2)

/-- Model of `d.get(k, 0)`. -/
def getValD (m : FreqMap) (k : Nat) : Nat := (lookupVal m k).getD 0

/-- Model of the default-fill pass
`for i in range(1, n + 1): if str(i) not in d: d[i] = 0`
(lines 455-463 of the source): missing keys are appended in ascending order
with count 0. -/
def fillRange (m : FreqMap) (n : Nat) : FreqMap :=
  (List.range n).foldl
    (fun acc i => if acc.any (fun p => p.1 == i + 1) then acc else acc ++ [(i + 1, 0)]) m

/-- First-occurrence deduplication with an accumulator of already seen
elements. -/
def pdedupAux : List Nat → List Nat → List Nat
  | [], _ => []
  | a :: l, seen => if a ∈ seen then pdedupAux l seen else a :: pdedupAux l (a :: seen)

/-- First-occurrence deduplication (the order in which a Python `set` built by
successive `add`s in iteration order collects distinct elements). -/
def pdedup (l : List Nat) : List Nat := pdedupAux l []

/-- One raw draw record: the `numbers` field and the (possibly missing)
`specialBall` field. -/
structure Draw where
  numbers : List Nat
  specialBall : Option Nat
deriving DecidableEq

/-- The tabulation state of `calculate_stats_for_type` (lines 363-380):
the overall frequency dict, the six per-position dicts (positions 0-5), the
special-ball dict, the set of historical combinations, and the count of draws
rejected for missing data. -/
structure TabState where
  frequency : FreqMap
  posFreqs : List FreqMap
  specialBallFrequency : FreqMap
  existingCombinations : List (List Nat)
  drawsWithMissingData : Nat
deriving DecidableEq

def initState : TabState :=
  { frequency := []
    posFreqs := [[], [], [], [], [], []]
    specialBallFrequency := []
    existingCombinations := []
    drawsWithMissingData := 0 }

/-- Model of `for i, num in enumerate(numbers): if i < 5: frequency_at_position[str(i)][str(num)] += 1`. -/
def bumpPositions (posFreqs : List FreqMap) (numbers : List Nat) : List FreqMap :=
  numbers.enum.foldl
    (fun pf p => if p.1 < 5 then pf.set p.1 (bump (pf.getD p.1 []) p.2) else pf) posFreqs

/-- Processing of one draw (lines 383-412).  A draw without exactly 5 numbers
or with a missing (`None`) special ball is rejected.  Otherwise the normalized
combination (regular numbers sorted ascending, special number appended) is
added to the historical set, the overall and per-position counters are bumped,
and — only when the special ball is truthy, i.e. nonzero — the special-ball
dict and position-5 dict are bumped. -/
def processDraw (st : TabState) (d : Draw) : TabState :=
  if d.numbers.length ≠ 5 ∨ d.specialBall = none then
    { st with drawsWithMissingData := st.drawsWithMissingData + 1 }
  else
    let sb := d.specialBall.getD 0
    let combination := sortAsc d.numbers ++ [sb]
    let ec := if combination ∈ st.existingCombinations then st.existingCombinations
              else st.existingCombinations ++ [combination]
    let freq := d.numbers.foldl bump st.frequency
    let pf := bumpPositions st.posFreqs d.numbers
    if sb ≠ 0 then
      { frequency := freq
        posFreqs := pf.set 5 (bump (pf.getD 5 []) sb)
        specialBallFrequency := bump st.specialBallFrequency sb
        existingCombinations := ec
        drawsWithMissingData := st.drawsWithMissingData }
    else
      { frequency := freq
        posFreqs := pf
        specialBallFrequency := st.specialBallFrequency
        existingCombinations := ec
        drawsWithMissingData := st.drawsWithMissingData }

/-- The whole tabulation pass over the input draws. -/
def tabulate (draws : List Draw) : TabState := draws.foldl processDraw initState

/-- The overall frequency dict after the default-fill pass (lines 455-458). -/
def filledFrequency (draws : List Draw) (maxRegular : Nat) : FreqMap :=
  fillRange (tabulate draws).frequency maxRegular

/-- The special-ball frequency dict after the default-fill pass (lines 460-463). -/
def filledSpecial (draws : List Draw) (maxSpecial : Nat) : FreqMap :=
  fillRange (tabulate draws).specialBallFrequency maxSpecial

/-- `sort_frequency_dict` (lines 160-174): Python's stable sort by count,
descending. -/
def sortFrequencyDict (m : FreqMap) : FreqMap := stableSortDesc m

/-- The per-position frequency lists handed to Strategy A (lines 466-473):
each of the five regular-position dicts, as a `(number, count)` list sorted by
count descending (stable). -/
def positionFrequencies (draws : List Draw) : List (List (Nat × Nat)) :=
  (List.range 5).map (fun p => stableSortDesc ((tabulate draws).posFreqs.getD p []))

/-- The baseline candidate of Strategy A (lines 189-194): the top-ranked number
of each position list, or 1 for a position with no data. -/
def baselineByPosition (positionFreqs : List (List (Nat × Nat))) : List Nat :=
  positionFreqs.map (fun posFreq => match posFreq with | [] => 1 | p :: _ => p.1)

/-- Line 197 / 271: the most frequent special ball, or 1 when there is no data. -/
def bestSpecialBall (specialFreqList : List (Nat × Nat)) : Nat :=
  match specialFreqList with | [] => 1 | p :: _ => p.1

/-- Lines 201-203 / 278-280: the historical combinations projected to their
sorted regular 5-tuples (`tuple(sorted(combo[:5]))`).  Only membership in this
collection is ever used, so a list models the Python set faithfully. -/
def existingRegularSets (existingCombinations : List (List Nat)) : List (List Nat) :=
  existingCombinations.map (fun combo => sortAsc (combo.take 5))

/-- One perturbation attempt of Strategy A (lines 214-234).  The position
`attempts % 5` is replaced by the next-ranked number of that position's
frequency list; if the list is exhausted, by the smallest number in `1..69`
not already used; if the current number is not in the list at all
(`ValueError` branch), by `(current % 69) + 1`. -/
def stratAStep (positionFreqs : List (List (Nat × Nat))) (optimized : List Nat)
    (attempts : Nat) : List Nat :=
  let positionToChange := attempts % 5
  let freqList := positionFreqs.getD positionToChange []
  let currentNum := optimized.getD positionToChange 0
  match List.findIdx? (fun p => p.1 == currentNum) freqList with
  | some currentIndex =>
      if currentIndex + 1 < freqList.length then
        optimized.set positionToChange (freqList.getD (currentIndex + 1) (0, 0)).1
      else
        let used := optimized.take 5
        match ((List.range 69).map (· + 1)).find? (fun i => decide (i ∉ used)) with
        | some i => optimized.set positionToChange i
        | none => optimized
  | none => optimized.set positionToChange (currentNum % 69 + 1)

/-- The bounded retry loop of Strategy A (lines 210-240): while the sorted
regular 5-tuple of the candidate is a historical regular set and fewer than
100 attempts were made, perturb once more.  The fuel argument is
`100 - attempts`. -/
def stratALoop (positionFreqs : List (List (Nat × Nat))) (ers : List (List Nat)) :
    Nat → Nat → List Nat → List Nat
  | 0, _, optimized => optimized
  | fuel + 1, attempts, optimized =>
    if sortAsc (optimized.take 5) ∈ ers then
      stratALoop positionFreqs ers fuel (attempts + 1) (stratAStep positionFreqs optimized attempts)
    else optimized

/-- `find_optimized_numbers` (lines 176-244), Strategy A. -/
def findOptimizedNumbers (positionFreqs : List (List (Nat × Nat)))
    (specialBallFrequencies : List (Nat × Nat)) (existingCombinations : List (List Nat)) :
    List Nat :=
  sortAsc ((stratALoop positionFreqs (existingRegularSets existingCombinations)
      100 0 (baselineByPosition positionFreqs)).take 5)
    ++ [bestSpecialBall specialBallFrequencies]

/-- `next((f for n, f in freq_list if n == num), 0)` (lines 303, 319). -/
def numFreq (freqList : List (Nat × Nat)) (num : Nat) : Nat :=
  ((freqList.find? (fun p => p.1 == num)).map (·.2)).getD 0

/-- The first index of the candidate achieving the minimum frequency
(lines 297-306 / 315-322; strict `<` keeps the first index on ties; the
initial value models `float('inf')`). -/
def leastFrequentIdx (freqList : List (Nat × Nat)) (l : List Nat) : Nat :=
  (l.enum.foldl
    (fun best p =>
      match best.2 with
      | none => (p.1, some (numFreq freqList p.2))
      | some v =>
          if numFreq freqList p.2 < v then (p.1, some (numFreq freqList p.2)) else best)
    ((0, none) : Nat × Option Nat)).1

/-- The rebuild branch of Strategy B (lines 330-337):
`while len(used) < 5: for num, _ in freq_list: if num not in used and len(used) < 5: used.add(num)`.
The source loop terminates exactly when `freq_list` carries at least 5 distinct
numbers — which holds at every reachable call, since the frequency dict is
default-filled over `1..maxRegular` with `maxRegular ≥ 5` — and in that case it
collects the first 5 distinct numbers in list order.  This function computes
that result (truncating when fewer than 5 distinct numbers exist, where the
source would not terminate). -/
def rebuildUsed (freqList : List (Nat × Nat)) : List Nat :=
  sortAsc ((pdedup (freqList.map (·.1))).take 5)

/-- One attempt of Strategy B (lines 288-337).  While attempts remain within
the frequency list, the least frequent member of the candidate is replaced by
the next unused entry of the globally sorted list; the nested fallback that
would draw from `available_numbers` via Python set iteration is modelled by
the `pick` oracle (it is in fact unreachable, see `stratBStep_pick_irrelevant`);
once the list is exhausted the candidate is rebuilt from the first five
distinct numbers of the list. -/
def stratBStep (pick : List Nat → Nat) (freqList : List (Nat × Nat)) (maxRegular : Nat)
    (optimizedRegular : List Nat) (attempts : Nat) : List Nat :=
  if attempts < freqList.length - 5 then
    if 5 + attempts < freqList.length then
      optimizedRegular.set (leastFrequentIdx freqList optimizedRegular)
        (freqList.getD (5 + attempts) (0, 0)).1
    else
      let availableNumbers :=
        ((List.range maxRegular).map (· + 1)).filter (fun i => decide (i ∉ optimizedRegular))
      if availableNumbers.isEmpty then optimizedRegular
      else
        optimizedRegular.set (leastFrequentIdx freqList optimizedRegular) (pick availableNumbers)
  else
    rebuildUsed freqList

/-- The bounded retry loop of Strategy B (lines 285-344); the candidate is
re-sorted ascending at the end of every attempt (line 340). -/
def stratBLoop (pick : List Nat → Nat) (freqList : List (Nat × Nat))
    (ers : List (List Nat)) (maxRegular : Nat) : Nat → Nat → List Nat → List Nat
  | 0, _, optimizedRegular => optimizedRegular
  | fuel + 1, attempts, optimizedRegular =>
    if optimizedRegular ∈ ers then
      stratBLoop pick freqList ers maxRegular fuel (attempts + 1)
        (sortAsc (stratBStep pick freqList maxRegular optimizedRegular attempts))
    else optimizedRegular

/-- `find_optimized_numbers_by_general_frequency` (lines 246-348), Strategy B. -/
def findOptimizedNumbersByGeneralFrequency (pick : List Nat → Nat)
    (frequency specialBallFrequency : FreqMap) (existingCombinations : List (List Nat))
    (maxRegular : Nat) : List Nat :=
  let freqList := stableSortDesc frequency
  stratBLoop pick freqList (existingRegularSets existingCombinations) maxRegular 100 0
      (sortAsc ((List.range (min 5 freqList.length)).map (fun i => (freqList.getD i (0, 0)).1)))
    ++ [bestSpecialBall (stableSortDesc specialBallFrequency)]

/-- The emitted statistics object of one variant (lines 498-506). -/
structure Stats where
  type : String
  totalDraws : Nat
  frequency : FreqMap
  frequencyAtPosition : List FreqMap
  specialBallFrequency : FreqMap
  optimizedByPosition : List Nat
  optimizedByGeneralFrequency : List Nat
deriving DecidableEq

/-- `calculate_stats_for_type` (lines 350-508): tabulate, default-fill the
overall and special dicts (but not the per-position dicts), run both
optimizers, and emit every dict sorted by count descending. -/
def calculateStatsForType (pick : List Nat → Nat) (draws : List Draw)
    (lotteryType : String) (maxRegular maxSpecial : Nat) : Stats :=
  { type := lotteryType
    totalDraws := draws.length - (tabulate draws).drawsWithMissingData
    frequency := sortFrequencyDict (filledFrequency draws maxRegular)
    frequencyAtPosition := (tabulate draws).posFreqs.map sortFrequencyDict
    specialBallFrequency := sortFrequencyDict (filledSpecial draws maxSpecial)
    optimizedByPosition :=
      findOptimizedNumbers (positionFrequencies draws)
        (stableSortDesc (filledSpecial draws maxSpecial))
        (tabulate draws).existingCombinations
    optimizedByGeneralFrequency :=
      findOptimizedNumbersByGeneralFrequency pick (filledFrequency draws maxRegular)
        (filledSpecial draws maxSpecial) (tabulate draws).existingCombinations maxRegular }

/-- Sum of the counts of a frequency dict (`sum(freq.values())`). -/
def sumValues (m : FreqMap) : Nat := (m.map (·.2)).sum

/-- Python `dict` equality: same keys with the same values, order ignored. -/
def dictBeq (a b : FreqMap) : Bool :=
  a.all (fun p => lookupVal b p.1 == some p.2) && b.all (fun p => lookupVal a p.1 == some p.2)

/-- The descending-order scan of check 6 (lines 83-91): each count is at most
the previous one. -/
def descendingValues : FreqMap → Bool
  | [] => true
  | [_] => true
  | a :: b :: l => Nat.ble b.2 a.2 && descendingValues (b :: l)

/-- `verify_frequency_stats` (lines 12-97): the six consistency checks, each
only recorded in the returned flag, never raising. -/
def verifyFrequencyStats (stats : Stats) : Bool :=
  (sumValues stats.frequency == stats.totalDraws * 5)
    && (sumValues stats.specialBallFrequency == stats.totalDraws)
    && ((List.range 6).all
        (fun p => sumValues (stats.frequencyAtPosition.getD p []) == stats.totalDraws))
    && dictBeq (stats.frequencyAtPosition.getD 5 []) stats.specialBallFrequency
    && (stats.frequency.all
        (fun p =>
          ((List.range 5).map (fun q => getValD (stats.frequencyAtPosition.getD q []) p.1)).sum
            == p.2))
    && ((List.range 6).all (fun p => descendingValues (stats.frequencyAtPosition.getD p [])))

/-- The observable outcome of `calculate_lottery_stats` (lines 99-158): the two
assembled statistics objects, the two verification flags, the files written,
and the returned success flag. -/
structure RunResult where
  mmStats : Stats
  pbStats : Stats
  mmVerified : Bool
  pbVerified : Bool
  written : List (String × Stats)
  success : Bool
deriving DecidableEq

/-- `calculate_lottery_stats` (lines 99-158): compute both variants
(Mega Millions 70/25, Powerball 69/26), verify both, then write both files
and return `True` — the verification result influences only the log line. -/
def calculateLotteryStats (pick : List Nat → Nat) (mmDraws pbDraws : List Draw) : RunResult :=
  let mmStats := calculateStatsForType pick mmDraws "mega-millions" 70 25
  let pbStats := calculateStatsForType pick pbDraws "powerball" 69 26
  { mmStats := mmStats
    pbStats := pbStats
    mmVerified := verifyFrequencyStats mmStats
    pbVerified := verifyFrequencyStats pbStats
    written := [("data/mm-stats.json", mmStats), ("data/pb-stats.json", pbStats)]
    success := true }

/-! ### Properties of the two sorts -/

theorem insertAsc_perm (a : Nat) (l : List Nat) : List.Perm (insertAsc a l) (a :: l) := by
  induction l with
  | nil => simp [insertAsc]
  | cons b l ih =>
    by_cases h : a ≤ b
    · simp [insertAsc, h]
    · simpa [insertAsc, h] using (ih.cons b).trans (List.Perm.swap a b l)

theorem sortAsc_perm (l : List Nat) : List.Perm (sortAsc l) l := by
  induction l with
  | nil => exact List.Perm.refl _
  | cons a l ih => exact (insertAsc_perm a (sortAsc l)).trans (ih.cons a)

theorem sortAsc_length (l : List Nat) : (sortAsc l).length = l.length :=
  (sortAsc_perm l).length_eq

theorem sortAsc_mem (l : List Nat) (x : Nat) : x ∈ sortAsc l ↔ x ∈ l :=
  (sortAsc_perm l).mem_iff

theorem sortAsc_nodup {l : List Nat} (h : l.Nodup) : (sortAsc l).Nodup :=
  ((sortAsc_perm l).nodup_iff).mpr h

theorem insertAsc_sorted {a : Nat} {l : List Nat} (h : l.Pairwise (· ≤ ·)) :
    (insertAsc a l).Pairwise (· ≤ ·) := by
  induction l with
  | nil => simp [insertAsc]
  | cons b l ih =>
    rcases List.pairwise_cons.mp h with ⟨hb, hl⟩
    by_cases hab : a ≤ b
    · simp only [insertAsc, if_pos hab]
      refine List.pairwise_cons.mpr ⟨?_, h⟩
      intro x hx
      rcases List.mem_cons.mp hx with rfl | hx
      · exact hab
      · exact le_trans hab (hb x hx)
    · simp only [insertAsc, if_neg hab]
      refine List.pairwise_cons.mpr ⟨?_, ih hl⟩
      intro x hx
      rcases List.mem_cons.mp ((insertAsc_perm a l).mem_iff.mp hx) with rfl | hx
      · exact Nat.le_of_not_le hab
      · exact hb x hx

theorem sortAsc_sorted (l : List Nat) : (sortAsc l).Pairwise (· ≤ ·) := by
  induction l with
  | nil => simp [sortAsc]
  | cons a l ih => exact insertAsc_sorted ih

theorem insertDesc_perm (a : Nat × Nat) (l : List (Nat × Nat)) :
    List.Perm (insertDesc a l) (a :: l) := by
  induction l with
  | nil => simp [insertDesc]
  | cons b l ih =>
    by_cases h : a.2 < b.2
    · simpa [insertDesc, h] using (ih.cons b).trans (List.Perm.swap a b l)
    · simp [insertDesc, h]

theorem stableSortDesc_perm (l : List (Nat × Nat)) : List.Perm (stableSortDesc l) l := by
  induction l with
  | nil => exact List.Perm.refl _
  | cons a l ih => exact (insertDesc_perm a (stableSortDesc l)).trans (ih.cons a)

theorem insertDesc_desc {a : Nat × Nat} {l : List (Nat × Nat)}
    (h : l.Pairwise (fun x y => y.2 ≤ x.2)) :
    (insertDesc a l).Pairwise (fun x y => y.2 ≤ x.2) := by
  induction l with
  | nil => simp [insertDesc]
  | cons b l ih =>
    rcases List.pairwise_cons.mp h with ⟨hb, hl⟩
    by_cases hab : a.2 < b.2
    · simp only [insertDesc, if_pos hab]
      refine List.pairwise_cons.mpr ⟨?_, ih hl⟩
      intro x hx
      rcases List.mem_cons.mp ((insertDesc_perm a l).mem_iff.mp hx) with rfl | hx
      · exact Nat.le_of_lt hab
      · exact hb x hx
    · simp only [insertDesc, if_neg hab]
      refine List.pairwise_cons.mpr ⟨?_, h⟩
      intro x hx
      rcases List.mem_cons.mp hx with rfl | hx
      · exact Nat.le_of_not_lt hab
      · exact le_trans (hb x hx) (Nat.le_of_not_lt hab)

theorem stableSortDesc_desc (l : List (Nat × Nat)) :
    (stableSortDesc l).Pairwise (fun x y => y.2 ≤ x.2) := by
  induction l with
  | nil => simp [stableSortDesc]
  | cons a l ih => exact insertDesc_desc ih

theorem insertDesc_filter (a : Nat × Nat) (l : List (Nat × Nat)) (c : Nat) :
    (insertDesc a l).filter (fun p => p.2 == c) =
      if a.2 = c then a :: l.filter (fun p => p.2 == c)
      else l.filter (fun p => p.2 == c) := by
  induction l with
  | nil => by_cases h : a.2 = c <;> simp [insertDesc, List.filter_cons, h]
  | cons b l ih =>
    by_cases hab : a.2 < b.2
    · simp only [insertDesc, if_pos hab, List.filter_cons]
      by_cases hac : a.2 = c
      · have hbc : ¬ (b.2 = c) := by omega
        simp [hac, hbc, ih]
      · by_cases hbc : b.2 = c <;> simp [hac, hbc, ih]
    · simp only [insertDesc, if_neg hab, List.filter_cons]
      by_cases hac : a.2 = c <;> simp [hac]

theorem stableSortDesc_filter (l : List (Nat × Nat)) (c : Nat) :
    (stableSortDesc l).filter (fun p => p.2 == c) = l.filter (fun p => p.2 == c) := by
  induction l with
  | nil => rfl
  | cons a l ih =>
    show (insertDesc a (stableSortDesc l)).filter _ = _
    rw [insertDesc_filter, List.filter_cons]
    by_cases hac : a.2 = c <;> simp [hac, ih]

/-! ### Properties of the frequency dictionaries -/

theorem any_key_iff (m : FreqMap) (k : Nat) :
    (m.any (fun p => p.1 == k)) = true ↔ k ∈ keys m := by
  simp [List.any_eq_true, keys, List.mem_map, beq_iff_eq]

theorem keys_bump (m : FreqMap) (k : Nat) :
    keys (bump m k) = if k ∈ keys m then keys m else keys m ++ [k] := by
  by_cases h : k ∈ keys m
  · rw [if_pos h]
    unfold bump
    rw [if_pos ((any_key_iff m k).mpr h)]
    unfold keys
    rw [List.map_map]
    apply List.map_congr_left
    intro p _
    by_cases hp : p.1 = k
    · simp [hp]
    · simp [hp]
  · rw [if_neg h]
    unfold bump
    rw [if_neg (fun hc => h ((any_key_iff m k).mp hc))]
    simp [keys]

theorem nodup_keys_bump {m : FreqMap} (h : (keys m).Nodup) (k : Nat) :
    (keys (bump m k)).Nodup := by
  rw [keys_bump]
  by_cases hk : k ∈ keys m
  · simpa [hk] using h
  · rw [if_neg hk]
    simpa [List.nodup_append, hk] using h

theorem keys_sub_bump (m : FreqMap) (k x : Nat) (hx : x ∈ keys (bump m k)) :
    x ∈ keys m ∨ x = k := by
  rw [keys_bump] at hx
  by_cases hk : k ∈ keys m
  · rw [if_pos hk] at hx
    exact Or.inl hx
  · rw [if_neg hk] at hx
    rcases List.mem_append.mp hx with h | h
    · exact Or.inl h
    · right
      simpa using h

/-- A generic preservation principle for `List.foldl`. -/
theorem foldl_invariant {σ α : Type} {f : σ → α → σ} {P : σ → Prop}
    (h : ∀ s a, P s → P (f s a)) : ∀ (l : List α) (s : σ), P s → P (l.foldl f s) := by
  intro l
  induction l with
  | nil => intro s hs; exact hs
  | cons a l ih =>
    intro s hs
    exact ih (f s a) (h s a hs)

theorem nodup_keys_foldl_bump {l : List Nat} {m : FreqMap} (h : (keys m).Nodup) :
    (keys (l.foldl bump m)).Nodup :=
  @foldl_invariant FreqMap Nat bump (fun s => (keys s).Nodup)
    (fun _ a hs => nodup_keys_bump hs a) l m h

theorem fillRange_succ (m : FreqMap) (n : Nat) :
    fillRange m (n + 1) =
      (if (fillRange m n).any (fun p => p.1 == n + 1) then fillRange m n
       else fillRange m n ++ [(n + 1, 0)]) := by
  unfold fillRange
  rw [List.range_succ, List.foldl_append]
  rfl

theorem fillRange_append (m : FreqMap) (n : Nat) : ∃ t, fillRange m n = m ++ t := by
  induction n with
  | zero => exact ⟨[], by simp [fillRange]⟩
  | succ n ih =>
    rcases ih with ⟨t, ht⟩
    rw [fillRange_succ]
    by_cases h : (fillRange m n).any (fun p => p.1 == n + 1)
    · exact ⟨t, by rw [if_pos h, ht]⟩
    · exact ⟨t ++ [(n + 1, 0)], by rw [if_neg h, ht, List.append_assoc]⟩

theorem fillRange_keys_mem (m : FreqMap) (n : Nat) :
    ∀ k, k ∈ keys (fillRange m n) ↔ k ∈ keys m ∨ (1 ≤ k ∧ k ≤ n) := by
  induction n with
  | zero =>
    intro k
    simp only [fillRange, List.range_zero, List.foldl_nil]
    constructor
    · exact fun h => Or.inl h
    · rintro (h | ⟨h1, h2⟩)
      · exact h
      · omega
  | succ n ih =>
    intro k
    rw [fillRange_succ]
    by_cases h : (fillRange m n).any (fun p => p.1 == n + 1)
    · rw [if_pos h, ih]
      have hmem : (n + 1) ∈ keys m ∨ (1 ≤ n + 1 ∧ n + 1 ≤ n) :=
        (ih (n + 1)).mp ((any_key_iff _ _).mp h)
      constructor
      · rintro (h' | h')
        · exact Or.inl h'
        · exact Or.inr ⟨h'.1, Nat.le_succ_of_le h'.2⟩
      · rintro (h' | ⟨h1, h2⟩)
        · exact Or.inl h'
        · rcases Nat.lt_or_ge k (n + 1) with hlt | hge
          · exact Or.inr ⟨h1, by omega⟩
          · have hk : k = n + 1 := by omega
            subst hk
            rcases hmem with h' | h'
            · exact Or.inl h'
            · omega
    · rw [if_neg h]
      unfold keys
      rw [List.map_append, List.mem_append]
      show k ∈ keys (fillRange m n) ∨ _ ↔ _
      rw [ih]
      simp only [List.map_cons, List.map_nil, List.mem_singleton]
      constructor
      · rintro ((h' | h') | h')
        · exact Or.inl h'
        · exact Or.inr ⟨h'.1, Nat.le_succ_of_le h'.2⟩
        · subst h'
          exact Or.inr ⟨by omega, by omega⟩
      · rintro (h' | ⟨h1, h2⟩)
        · exact Or.inl (Or.inl h')
        · rcases Nat.lt_or_ge k (n + 1) with hlt | hge
          · exact Or.inl (Or.inr ⟨h1, by omega⟩)
          · have hk : k = n + 1 := by omega
            subst hk
            exact Or.inr rfl

theorem fillRange_nodup_keys {m : FreqMap} (h : (keys m).Nodup) (n : Nat) :
    (keys (fillRange m n)).Nodup := by
  induction n with
  | zero => exact h
  | succ n ih =>
    rw [fillRange_succ]
    by_cases hc : (fillRange m n).any (fun p => p.1 == n + 1)
    · rw [if_pos hc]
      exact ih
    · rw [if_neg hc]
      have hnm : (n + 1) ∉ keys (fillRange m n) := fun hm => hc ((any_key_iff _ _).mpr hm)
      unfold keys
      rw [List.map_append]
      refine List.nodup_append.mpr ⟨ih, by simp, ?_⟩
      intro x hx
      simp only [List.map_cons, List.map_nil, List.mem_singleton]
      intro hx1
      subst hx1
      exact hnm hx

theorem fillRange_mem_zero {m : FreqMap} (k : Nat) (hk : k ∉ keys m) (h1 : 1 ≤ k) :
    ∀ n, k ≤ n → (k, 0) ∈ fillRange m n := by
  intro n
  induction n with
  | zero => omega
  | succ n ih =>
    intro h2
    rw [fillRange_succ]
    by_cases hc : (fillRange m n).any (fun p => p.1 == n + 1)
    · rw [if_pos hc]
      rcases Nat.lt_or_ge k (n + 1) with hlt | hge
      · exact ih (by omega)
      · have hk' : k = n + 1 := by omega
        subst hk'
        have hmem := (fillRange_keys_mem m n (n + 1)).mp ((any_key_iff _ _).mp hc)
        rcases hmem with h' | h'
        · exact absurd h' hk
        · omega
    · rw [if_neg hc]
      rcases Nat.lt_or_ge k (n + 1) with hlt | hge
      · exact List.mem_append_left _ (ih (by omega))
      · have hk' : k = n + 1 := by omega
        subst hk'
        simp

/-! ### Invariants of the tabulation pass -/

theorem valid_branch_spec {d : Draw} (h : ¬(d.numbers.length ≠ 5 ∨ d.specialBall = none)) :
    d.numbers.length = 5 ∧ d.specialBall = some (d.specialBall.getD 0) := by
  push_neg at h
  refine ⟨h.1, ?_⟩
  cases hsb : d.specialBall with
  | none => exact absurd hsb h.2
  | some s => rfl

theorem processDraw_freq_nodup (st : TabState) (d : Draw)
    (h : (keys st.frequency).Nodup) : (keys (processDraw st d).frequency).Nodup := by
  unfold processDraw
  split
  · exact h
  · dsimp only
    split
    · exact nodup_keys_foldl_bump h
    · exact nodup_keys_foldl_bump h

theorem tabulate_freq_nodup (draws : List Draw) :
    (keys (tabulate draws).frequency).Nodup :=
  @foldl_invariant TabState Draw processDraw (fun st => (keys st.frequency).Nodup)
    processDraw_freq_nodup draws initState (by simp [initState, keys])

theorem processDraw_special_nodup (st : TabState) (d : Draw)
    (h : (keys st.specialBallFrequency).Nodup) :
    (keys (processDraw st d).specialBallFrequency).Nodup := by
  unfold processDraw
  split
  · exact h
  · dsimp only
    split
    · exact nodup_keys_bump h _
    · exact h

theorem tabulate_special_nodup (draws : List Draw) :
    (keys (tabulate draws).specialBallFrequency).Nodup :=
  @foldl_invariant TabState Draw processDraw
    (fun st => (keys st.specialBallFrequency).Nodup)
    processDraw_special_nodup draws initState (by simp [initState, keys])

theorem tabulate_special_range (draws : List Draw) (maxS : Nat)
    (hs : ∀ d ∈ draws, ∀ s, d.specialBall = some s → s ≤ maxS) :
    ∀ x ∈ keys (tabulate draws).specialBallFrequency, 1 ≤ x ∧ x ≤ maxS := by
  suffices aux : ∀ (ds : List Draw) (st : TabState),
      (∀ d ∈ ds, ∀ s, d.specialBall = some s → s ≤ maxS) →
      (∀ x ∈ keys st.specialBallFrequency, 1 ≤ x ∧ x ≤ maxS) →
      ∀ x ∈ keys (ds.foldl processDraw st).specialBallFrequency, 1 ≤ x ∧ x ≤ maxS by
    exact aux draws initState hs (by simp [initState, keys])
  intro ds
  induction ds with
  | nil => intro st _ hst; exact hst
  | cons d ds ih =>
    intro st hds hst
    refine ih (processDraw st d) (fun d' hd' => hds d' (List.mem_cons_of_mem d hd')) ?_
    unfold processDraw
    split
    · exact hst
    · rename_i hval
      dsimp only
      split
      · rename_i hsb
        intro x hx
        rcases keys_sub_bump _ _ _ hx with hm | rfl
        · exact hst x hm
        · have hd := hds d (List.mem_cons_self d ds)
          have hspec := (valid_branch_spec hval).2
          refine ⟨by omega, hd _ hspec⟩
      · exact hst

/-! ### Helper lemmas about take, set and deduplication -/

theorem mem_take_mono {l : List Nat} {i j : Nat} (hij : i ≤ j) {x : Nat}
    (hx : x ∈ l.take i) : x ∈ l.take j := by
  have hj : l.take j = l.take i ++ (l.drop i).take (j - i) := by
    rw [← List.take_add]
    congr 1
    omega
  rw [hj]
  exact List.mem_append_left _ hx

theorem getElem_not_mem_take {l : List Nat} (h : l.Nodup) {i : Nat} (hi : i < l.length) :
    l[i] ∉ l.take i := by
  have h1 : (l.take (i + 1)).Nodup := h.sublist (List.take_sublist _ _)
  rw [List.take_succ, List.getElem?_eq_getElem hi] at h1
  simp only [Option.toList_some] at h1
  have h2 := List.nodup_append.mp h1
  intro hmem
  exact h2.2.2 hmem (by simp)

theorem nodup_set_of_not_mem : ∀ {l : List Nat} (i : Nat) {a : Nat},
    l.Nodup → a ∉ l → (l.set i a).Nodup := by
  intro l
  induction l with
  | nil => intro i a _ _; simp
  | cons b l ih =>
    intro i a h ha
    rcases List.nodup_cons.mp h with ⟨hb, hl⟩
    cases i with
    | zero =>
      show (a :: l).Nodup
      refine List.nodup_cons.mpr ⟨?_, hl⟩
      intro hmem
      exact ha (List.mem_cons_of_mem _ hmem)
    | succ i =>
      show (b :: l.set i a).Nodup
      refine List.nodup_cons.mpr ⟨?_, ih i hl (fun hm => ha (List.mem_cons_of_mem _ hm))⟩
      intro hmem
      rcases List.mem_or_eq_of_mem_set hmem with hm | heq
      · exact hb hm
      · cases heq
        exact ha (List.mem_cons_self _ _)

theorem rangeMap_getD_take (l : List (Nat × Nat)) :
    ∀ n, n ≤ l.length →
      (List.range n).map (fun i => (l.getD i (0, 0)).1) = (l.map (·.1)).take n := by
  intro n
  induction n with
  | zero => intro _; simp
  | succ n ih =>
    intro h
    have hn : n < l.length := by omega
    have hn' : n < (l.map (·.1)).length := by simpa using hn
    rw [List.range_succ, List.map_append, ih (by omega), List.take_succ,
      List.getElem?_eq_getElem hn']
    simp only [List.map_cons, List.map_nil, Option.toList_some]
    congr 1
    rw [List.getD_eq_getElem _ _ hn, List.getElem_map]

theorem pdedupAux_eq_self : ∀ {l seen : List Nat},
    l.Nodup → (∀ x ∈ l, x ∉ seen) → pdedupAux l seen = l := by
  intro l
  induction l with
  | nil => intro seen _ _; rfl
  | cons a l ih =>
    intro seen h hseen
    rcases List.nodup_cons.mp h with ⟨ha, hl⟩
    unfold pdedupAux
    rw [if_neg (hseen a (List.mem_cons_self a l))]
    congr 1
    refine ih hl ?_
    intro x hx
    intro hmem
    rcases List.mem_cons.mp hmem with heq | hmem'
    · subst heq
      exact ha hx
    · exact hseen x (List.mem_cons_of_mem a hx) hmem'

theorem pdedup_eq_self {l : List Nat} (h : l.Nodup) : pdedup l = l :=
  pdedupAux_eq_self h (by simp)

/-! ### Properties of the Strategy A loop -/

theorem stratAStep_length (pf : List (List (Nat × Nat))) (o : List Nat) (k : Nat) :
    (stratAStep pf o k).length = o.length := by
  unfold stratAStep
  dsimp only
  split
  · split
    · simp [List.length_set]
    · split
      · simp [List.length_set]
      · rfl
  · simp [List.length_set]

theorem stratALoop_length (pf : List (List (Nat × Nat))) (ers : List (List Nat)) :
    ∀ fuel attempts o, (stratALoop pf ers fuel attempts o).length = o.length := by
  intro fuel
  induction fuel with
  | zero => intro _ _; rfl
  | succ fuel ih =>
    intro attempts o
    unfold stratALoop
    split
    · rw [ih]
      exact stratAStep_length pf o attempts
    · rfl

/-! ### Properties of the Strategy B loop -/

/-- The nested fallback of Strategy B that would consult Python set iteration
order (`next(iter(available_numbers))`, lines 310-326) is unreachable: its
guard `5 + attempts < len(freq_list)` is implied by the enclosing branch
condition `attempts < len(freq_list) - 5`.  Hence one attempt of Strategy B is
independent of the `pick` oracle. -/
theorem stratBStep_pick_irrelevant (p1 p2 : List Nat → Nat) (fl : List (Nat × Nat))
    (maxR : Nat) (o : List Nat) (k : Nat) :
    stratBStep p1 fl maxR o k = stratBStep p2 fl maxR o k := by
  unfold stratBStep
  by_cases h : k < fl.length - 5
  · have h2 : 5 + k < fl.length := by omega
    rw [if_pos h, if_pos h, if_pos h2, if_pos h2]
  · rw [if_neg h, if_neg h]

theorem stratBLoop_pick_irrelevant (p1 p2 : List Nat → Nat) (fl : List (Nat × Nat))
    (ers : List (List Nat)) (maxR : Nat) :
    ∀ fuel attempts o,
      stratBLoop p1 fl ers maxR fuel attempts o = stratBLoop p2 fl ers maxR fuel attempts o := by
  intro fuel
  induction fuel with
  | zero => intro _ _; rfl
  | succ fuel ih =>
    intro attempts o
    unfold stratBLoop
    split
    · rw [stratBStep_pick_irrelevant p1 p2, ih]
    · rfl

theorem stratBStep_props (pick : List Nat → Nat) (fl : List (Nat × Nat)) (maxR : Nat)
    (hk : (fl.map (·.1)).Nodup) (h5 : 5 ≤ fl.length) (opt : List Nat) (attempts : Nat)
    (h1 : opt.Nodup) (h2 : opt.length = 5)
    (h4 : ∀ x ∈ opt, x ∈ (fl.map (·.1)).take (5 + attempts)) :
    (stratBStep pick fl maxR opt attempts).Nodup ∧
      (stratBStep pick fl maxR opt attempts).length = 5 ∧
      (∀ x ∈ stratBStep pick fl maxR opt attempts,
        x ∈ (fl.map (·.1)).take (5 + (attempts + 1))) := by
  unfold stratBStep
  by_cases hc : attempts < fl.length - 5
  · have h2' : 5 + attempts < fl.length := by omega
    rw [if_pos hc, if_pos h2']
    have hlen : 5 + attempts < (fl.map (·.1)).length := by simpa using h2'
    have hnew : (fl.getD (5 + attempts) (0, 0)).1 = (fl.map (·.1))[5 + attempts] := by
      rw [List.getD_eq_getElem _ _ h2', List.getElem_map]
    have hnotin : (fl.map (·.1))[5 + attempts] ∉ (fl.map (·.1)).take (5 + attempts) :=
      getElem_not_mem_take hk hlen
    have hnew_notin_opt : (fl.getD (5 + attempts) (0, 0)).1 ∉ opt := by
      rw [hnew]
      intro hmem
      exact hnotin (h4 _ hmem)
    have htake : (fl.map (·.1)).take (5 + attempts + 1) =
        (fl.map (·.1)).take (5 + attempts) ++ [(fl.map (·.1))[5 + attempts]] := by
      rw [List.take_succ, List.getElem?_eq_getElem hlen]
      simp
    refine ⟨nodup_set_of_not_mem _ h1 hnew_notin_opt, by simp [List.length_set, h2], ?_⟩
    intro x hx
    rcases List.mem_or_eq_of_mem_set hx with hm | heq
    · exact mem_take_mono (by omega) (h4 x hm)
    · subst heq
      rw [hnew]
      have h6 : 5 + (attempts + 1) = 5 + attempts + 1 := by omega
      rw [h6, htake]
      exact List.mem_append_right _ (by simp)
  · rw [if_neg hc]
    unfold rebuildUsed
    rw [pdedup_eq_self hk]
    refine ⟨sortAsc_nodup ((hk.sublist (List.take_sublist _ _))), ?_, ?_⟩
    · rw [sortAsc_length, List.length_take, List.length_map]
      omega
    · intro x hx
      rw [sortAsc_mem] at hx
      exact mem_take_mono (by omega) hx

theorem stratBLoop_props (pick : List Nat → Nat) (fl : List (Nat × Nat))
    (ers : List (List Nat)) (maxR : Nat)
    (hk : (fl.map (·.1)).Nodup) (h5 : 5 ≤ fl.length) :
    ∀ fuel attempts opt, opt.Nodup → opt.length = 5 → opt.Pairwise (· ≤ ·) →
      (∀ x ∈ opt, x ∈ (fl.map (·.1)).take (5 + attempts)) →
      (stratBLoop pick fl ers maxR fuel attempts opt).Nodup ∧
        (stratBLoop pick fl ers maxR fuel attempts opt).length = 5 ∧
        (stratBLoop pick fl ers maxR fuel attempts opt).Pairwise (· ≤ ·) := by
  intro fuel
  induction fuel with
  | zero => intro _ _ h1 h2 h3 _; exact ⟨h1, h2, h3⟩
  | succ fuel ih =>
    intro attempts opt h1 h2 h3 h4
    unfold stratBLoop
    split
    · have hstep := stratBStep_props pick fl maxR hk h5 opt attempts h1 h2 h4
      have hperm := sortAsc_perm (stratBStep pick fl maxR opt attempts)
      refine ih (attempts + 1) _ ((hperm.nodup_iff).mpr hstep.1) ?_ (sortAsc_sorted _) ?_
      · rw [sortAsc_length]
        exact hstep.2.1
      · intro x hx
        exact hstep.2.2 x ((sortAsc_mem _ x).mp hx)
    · exact ⟨h1, h2, h3⟩

/-! ### Further loop lemmas -/

theorem stratALoop_not_mem (pf : List (List (Nat × Nat))) (ers : List (List Nat))
    (attempts : Nat) (o : List Nat) (h : sortAsc (o.take 5) ∉ ers) :
    ∀ fuel, stratALoop pf ers fuel attempts o = o := by
  intro fuel
  cases fuel with
  | zero => rfl
  | succ fuel =>
    unfold stratALoop
    rw [if_neg h]

/-- A concrete `pick` oracle used to instantiate theorems about the full
pipeline at concrete inputs (the result never depends on it, see
`stratBLoop_pick_irrelevant`). -/
def pick0 : List Nat → Nat := fun l => l.headD 0

/-- C10: the statistics computation is deterministic — `calculate_stats_for_type`
is a pure function of the draw sequence and the variant bounds, and in
particular its only implementation-defined ingredient, the Python set
iteration `next(iter(available_numbers))` in the fallback branch of Strategy B
(modelled by the `pick` oracle), never influences the result: the branch that
would consult it is unreachable. -/
theorem c10_stats_deterministic (p1 p2 : List Nat → Nat) (draws : List Draw)
    (t : String) (maxR maxS : Nat) :
    calculateStatsForType p1 draws t maxR maxS = calculateStatsForType p2 draws t maxR maxS := by
  unfold calculateStatsForType findOptimizedNumbersByGeneralFrequency
  dsimp only
  rw [stratBLoop_pick_irrelevant p1 p2]

/-- C9: verification failures never abort statistics generation — for every
input, `calculate_lottery_stats` writes the fully assembled statistics objects
of both variants and returns success, whatever `verify_frequency_stats`
returns; and `verify_frequency_stats` always returns a boolean. -/
theorem c9_verify_never_blocks (pick : List Nat → Nat) (mmDraws pbDraws : List Draw) :
    (calculateLotteryStats pick mmDraws pbDraws).written =
        [("data/mm-stats.json", calculateStatsForType pick mmDraws "mega-millions" 70 25),
         ("data/pb-stats.json", calculateStatsForType pick pbDraws "powerball" 69 26)] ∧
      (calculateLotteryStats pick mmDraws pbDraws).success = true ∧
      (verifyFrequencyStats (calculateLotteryStats pick mmDraws pbDraws).mmStats = false ∨
        verifyFrequencyStats (calculateLotteryStats pick mmDraws pbDraws).mmStats = true) ∧
      (verifyFrequencyStats (calculateLotteryStats pick mmDraws pbDraws).pbStats = false ∨
        verifyFrequencyStats (calculateLotteryStats pick mmDraws pbDraws).pbStats = true) :=
  ⟨rfl, rfl, Bool.dichotomy _, Bool.dichotomy _⟩

/-- C8: in Strategy A the special-number slot is fixed at the baseline choice:
for every input whose special-ball frequency list is nonempty, the last element
of the returned list is the number of the top-ranked entry of that list,
however many perturbation attempts occur. -/
theorem c8_special_slot_never_perturbed (pf : List (List (Nat × Nat)))
    (sf : List (Nat × Nat)) (ec : List (List Nat)) (h : sf ≠ []) :
    (findOptimizedNumbers pf sf ec).getLast? = some ((sf.headD (0, 0)).1) := by
  unfold findOptimizedNumbers
  rw [List.getLast?_concat]
  cases sf with
  | nil => exact absurd rfl h
  | cons a l => rfl

/-- Witness instantiating `c8_special_slot_never_perturbed` at a concrete input. -/
theorem c8_witness :
    (findOptimizedNumbers [[(3, 2)], [(4, 1)], [(5, 1)], [(6, 1)], [(7, 1)]]
      [(9, 4), (2, 1)] []).getLast? = some 9 :=
  c8_special_slot_never_perturbed _ _ _ (by decide)

/-- C1 (amended): Strategy A decides whether to perturb by checking the sorted
regular 5-tuple of the candidate against the historical *regular-number sets*
(`combo[:5]`), not the full 6-tuple: when the baseline's sorted regular
5-tuple is absent from those sets the baseline is returned unperturbed, and
whenever the returned candidate's sorted regular 5-tuple is absent from those
sets the returned normalized 6-tuple is absent from `historicalCombinations`. -/
theorem c1_perturb_checks_regular_set (pf : List (List (Nat × Nat)))
    (sf : List (Nat × Nat)) (ec : List (List Nat)) :
    (sortAsc ((baselineByPosition pf).take 5) ∉ existingRegularSets ec →
        findOptimizedNumbers pf sf ec =
          sortAsc ((baselineByPosition pf).take 5) ++ [bestSpecialBall sf]) ∧
    (sortAsc ((findOptimizedNumbers pf sf ec).take 5) ∉ existingRegularSets ec →
        findOptimizedNumbers pf sf ec ∉ ec) := by
  constructor
  · intro h
    unfold findOptimizedNumbers
    rw [stratALoop_not_mem pf (existingRegularSets ec) 0 (baselineByPosition pf) h 100]
  · intro h hmem
    apply h
    unfold existingRegularSets
    exact List.mem_map_of_mem _ hmem

/-- C1 counterexample: with history `{(1,2,3,4,5,6)}` and a baseline whose
normalized 6-tuple is `(1,2,3,4,5,7)` — absent from the history — Strategy A
still perturbs, because the regular 5-set `(1,2,3,4,5)` matches: the result is
`(2,3,4,5,6,7)`, not the baseline.  This refutes "the baseline is perturbed if
and only if its full 6-tuple is present in historicalCombinations". -/
theorem c1_counterexample :
    ([1, 2, 3, 4, 5, 7] ∉ [[1, 2, 3, 4, 5, 6]]) ∧
    sortAsc ((baselineByPosition [[(1, 1)], [(2, 1)], [(3, 1)], [(4, 1)], [(5, 1)]]).take 5)
        ++ [bestSpecialBall [(7, 1)]] = [1, 2, 3, 4, 5, 7] ∧
    findOptimizedNumbers [[(1, 1)], [(2, 1)], [(3, 1)], [(4, 1)], [(5, 1)]] [(7, 1)]
        [[1, 2, 3, 4, 5, 6]] = [2, 3, 4, 5, 6, 7] := by
  refine ⟨by decide, by decide, by decide⟩

/-- Witness instantiating `c1_perturb_checks_regular_set` at a concrete input. -/
theorem c1_witness :
    findOptimizedNumbers [[(1, 1)]] [(9, 2)] [] = [1, 9] ∧
    findOptimizedNumbers [[(1, 1)]] [(9, 2)] [] ∉ ([] : List (List Nat)) :=
  ⟨((c1_perturb_checks_regular_set [[(1, 1)]] [(9, 2)] []).1 (by decide)).trans (by decide),
   (c1_perturb_checks_regular_set [[(1, 1)]] [(9, 2)] []).2 (by decide)⟩

/-- C6: with `maxRegular = 5` and a single historical draw using all 5 possible
regular numbers, Strategy B's replacement loop terminates within its
100-attempt bound and returns a 6-element list; the inner rebuild loop's
termination condition — at least 5 distinct numbers in the frequency list —
holds throughout. -/
theorem c6_strategyB_exhaustion_terminates :
    (calculateStatsForType pick0 [⟨[1, 2, 3, 4, 5], some 1⟩] "test" 5 2).optimizedByGeneralFrequency
        = [1, 2, 3, 4, 5, 1] ∧
    (calculateStatsForType pick0 [⟨[1, 2, 3, 4, 5], some 1⟩] "test" 5 2).optimizedByGeneralFrequency.length
        = 6 ∧
    5 ≤ (pdedup ((stableSortDesc (filledFrequency [⟨[1, 2, 3, 4, 5], some 1⟩] 5)).map (·.1))).length := by
  refine ⟨by decide, by decide, by decide⟩

/-- C2: the emitted `frequencyAtPosition["5"]` table is NOT always identical to
the emitted `specialBallFrequency` table.  The default-fill pass (source lines
460-463) is applied to `special_ball_frequency` only, never to
`frequency_at_position["5"]`, so the two emitted mappings differ whenever some
special number in `[1, maxSpecial]` was never observed — here, one Powerball
draw with special ball 1: position-5 has the single key 1 while the
special-ball table also holds keys 2..26 with count 0 (the code's own
verification check 4 reports FAIL on such inputs). -/
theorem c2_position5_differs_from_special :
    dictBeq
        ((calculateStatsForType pick0 [⟨[1, 2, 3, 4, 5], some 1⟩] "powerball" 69 26).frequencyAtPosition.getD 5 [])
        (calculateStatsForType pick0 [⟨[1, 2, 3, 4, 5], some 1⟩] "powerball" 69 26).specialBallFrequency
      = false ∧
    lookupVal
        ((calculateStatsForType pick0 [⟨[1, 2, 3, 4, 5], some 1⟩] "powerball" 69 26).frequencyAtPosition.getD 5 [])
        2 = none ∧
    lookupVal
        (calculateStatsForType pick0 [⟨[1, 2, 3, 4, 5], some 1⟩] "powerball" 69 26).specialBallFrequency
        2 = some 0 := by
  refine ⟨by decide, by decide, by decide⟩

/-- C4: the sum of the emitted special-ball counts does NOT always equal
`totalDraws`.  A draw whose `specialBall` is 0 passes validation (the code only
checks `special_ball is None`, line 388) and is counted in `totalDraws`, but
the truthiness test `if special_ball:` (line 410) skips its special-ball
increment, so the sum falls short (the code's own verification check 2 reports
FAIL on such inputs). -/
theorem c4_zero_special_breaks_sum :
    (calculateStatsForType pick0 [⟨[1, 2, 3, 4, 5], some 0⟩] "powerball" 69 26).totalDraws = 1 ∧
    sumValues
        (calculateStatsForType pick0 [⟨[1, 2, 3, 4, 5], some 0⟩] "powerball" 69 26).specialBallFrequency
      = 0 := by
  refine ⟨by decide, by decide⟩

/-- C3 counterexample: the spec's own zero-valid-draws example.  With one draw
whose `specialBall` is missing, `totalDraws = 0`, but the emitted per-position
table for position 0 is empty — it does not contain every integer of
`[1, maxRegular]`, because the default-fill pass never touches the
per-position tables. -/
theorem c3_counterexample :
    (calculateStatsForType pick0 [⟨[1, 2, 3, 4, 5], none⟩] "powerball" 69 26).totalDraws = 0 ∧
    (calculateStatsForType pick0 [⟨[1, 2, 3, 4, 5], none⟩] "powerball" 69 26).frequencyAtPosition.getD 0 []
      = [] ∧
    1 ∉ keys
        ((calculateStatsForType pick0 [⟨[1, 2, 3, 4, 5], none⟩] "powerball" 69 26).frequencyAtPosition.getD 0 []) := by
  refine ⟨by decide, by decide, by decide⟩

/-- C3 (amended): after tabulation every integer in `[1, maxRegular]` appears
as a key of the emitted overall frequency table (with count 0 when never
observed) and every integer in `[1, maxSpecial]` appears in the emitted
special-number table (with count 0 when never observed); the six per-position
tables are not default-filled and contain only observed numbers. -/
theorem c3_full_range_fill (pick : List Nat → Nat) (draws : List Draw) (t : String)
    (maxR maxS i : Nat) :
    (1 ≤ i → i ≤ maxR →
      i ∈ keys (calculateStatsForType pick draws t maxR maxS).frequency ∧
      (i ∉ keys (tabulate draws).frequency →
        (i, 0) ∈ (calculateStatsForType pick draws t maxR maxS).frequency)) ∧
    (1 ≤ i → i ≤ maxS →
      i ∈ keys (calculateStatsForType pick draws t maxR maxS).specialBallFrequency ∧
      (i ∉ keys (tabulate draws).specialBallFrequency →
        (i, 0) ∈ (calculateStatsForType pick draws t maxR maxS).specialBallFrequency)) := by
  constructor
  · intro hi1 hi2
    constructor
    · show i ∈ keys (sortFrequencyDict (filledFrequency draws maxR))
      have hperm := (stableSortDesc_perm (filledFrequency draws maxR)).map (·.1)
      exact hperm.mem_iff.mpr ((fillRange_keys_mem _ _ i).mpr (Or.inr ⟨hi1, hi2⟩))
    · intro hnot
      show (i, 0) ∈ sortFrequencyDict (filledFrequency draws maxR)
      exact (stableSortDesc_perm _).mem_iff.mpr (fillRange_mem_zero i hnot hi1 maxR hi2)
  · intro hi1 hi2
    constructor
    · show i ∈ keys (sortFrequencyDict (filledSpecial draws maxS))
      have hperm := (stableSortDesc_perm (filledSpecial draws maxS)).map (·.1)
      exact hperm.mem_iff.mpr ((fillRange_keys_mem _ _ i).mpr (Or.inr ⟨hi1, hi2⟩))
    · intro hnot
      show (i, 0) ∈ sortFrequencyDict (filledSpecial draws maxS)
      exact (stableSortDesc_perm _).mem_iff.mpr (fillRange_mem_zero i hnot hi1 maxS hi2)

/-- Witness instantiating `c3_full_range_fill` at a concrete input. -/
theorem c3_witness :
    1 ∈ keys (calculateStatsForType pick0 [] "t" 2 1).frequency ∧
    (1, 0) ∈ (calculateStatsForType pick0 [] "t" 2 1).frequency ∧
    1 ∈ keys (calculateStatsForType pick0 [] "t" 2 1).specialBallFrequency ∧
    (1, 0) ∈ (calculateStatsForType pick0 [] "t" 2 1).specialBallFrequency := by
  have h := c3_full_range_fill pick0 [] "t" 2 1 1
  have ha := h.1 (by decide) (by decide)
  have hb := h.2 (by decide) (by decide)
  exact ⟨ha.1, ha.2 (by decide), hb.1, hb.2 (by decide)⟩

/-- The emitted table of a sorted position list. -/
theorem getD_map_sortFrequencyDict (l : List FreqMap) (p : Nat) :
    (l.map sortFrequencyDict).getD p [] = sortFrequencyDict (l.getD p []) := by
  by_cases h : p < l.length
  · rw [List.getD_eq_getElem _ _ (by simpa using h), List.getElem_map,
      List.getD_eq_getElem _ _ h]
  · rw [List.getD_eq_default, List.getD_eq_default]
    · rfl
    · omega
    · simpa using h

/-- Non-increasing by count. -/
def descByCount (m : FreqMap) : Prop := m.Pairwise (fun a b => b.2 ≤ a.2)

/-- C7: every emitted frequency mapping — the overall table, the special-ball
table and all six per-position tables — is ordered non-increasing by count,
and entries with equal counts keep the insertion order of the underlying
tabulation dictionary (stable descending sort): filtering any emitted table to
a fixed count gives exactly the corresponding pre-sort dictionary filtered to
that count, in order. -/
theorem c7_tables_sorted_stable (pick : List Nat → Nat) (draws : List Draw)
    (t : String) (maxR maxS : Nat) :
    descByCount (calculateStatsForType pick draws t maxR maxS).frequency ∧
    descByCount (calculateStatsForType pick draws t maxR maxS).specialBallFrequency ∧
    (∀ p : Nat,
      descByCount ((calculateStatsForType pick draws t maxR maxS).frequencyAtPosition.getD p [])) ∧
    (∀ c : Nat,
      (calculateStatsForType pick draws t maxR maxS).frequency.filter (fun q => q.2 == c)
        = (filledFrequency draws maxR).filter (fun q => q.2 == c)) ∧
    (∀ c : Nat,
      (calculateStatsForType pick draws t maxR maxS).specialBallFrequency.filter (fun q => q.2 == c)
        = (filledSpecial draws maxS).filter (fun q => q.2 == c)) ∧
    (∀ p c : Nat,
      ((calculateStatsForType pick draws t maxR maxS).frequencyAtPosition.getD p []).filter
          (fun q => q.2 == c)
        = ((tabulate draws).posFreqs.getD p []).filter (fun q => q.2 == c)) := by
  refine ⟨stableSortDesc_desc _, stableSortDesc_desc _, ?_, ?_, ?_, ?_⟩
  · intro p
    show descByCount (((tabulate draws).posFreqs.map sortFrequencyDict).getD p [])
    rw [getD_map_sortFrequencyDict]
    exact stableSortDesc_desc _
  · intro c
    exact stableSortDesc_filter _ c
  · intro c
    exact stableSortDesc_filter _ c
  · intro p c
    show (((tabulate draws).posFreqs.map sortFrequencyDict).getD p []).filter _ = _
    rw [getD_map_sortFrequencyDict]
    exact stableSortDesc_filter _ c

/-! ### Shape of the optimized combinations -/

theorem take_append_exact (X : List Nat) (b : Nat) (h : X.length = 5) :
    (X ++ [b]).take 5 = X := by
  rw [← h, List.take_left]

theorem getD_append_last (X : List Nat) (b : Nat) (h : X.length = 5) :
    (X ++ [b]).getD 5 0 = b := by
  rw [List.getD_eq_getElem?_getD, List.getElem?_append_right (by omega), h]
  simp

theorem bestSpecial_in_range (draws : List Draw) (maxS : Nat) (h1 : 1 ≤ maxS)
    (hs : ∀ d ∈ draws, ∀ s, d.specialBall = some s → s ≤ maxS) :
    1 ≤ bestSpecialBall (stableSortDesc (filledSpecial draws maxS)) ∧
      bestSpecialBall (stableSortDesc (filledSpecial draws maxS)) ≤ maxS := by
  have hne : filledSpecial draws maxS ≠ [] := by
    intro hnil
    have hmem : (1 : Nat) ∈ keys (filledSpecial draws maxS) :=
      (fillRange_keys_mem _ _ 1).mpr (Or.inr ⟨le_refl 1, h1⟩)
    rw [hnil] at hmem
    simp [keys] at hmem
  cases hL : stableSortDesc (filledSpecial draws maxS) with
  | nil =>
    exfalso
    have hperm := stableSortDesc_perm (filledSpecial draws maxS)
    rw [hL] at hperm
    exact hne hperm.symm.eq_nil
  | cons a tl =>
    have ha : a ∈ filledSpecial draws maxS := by
      refine (stableSortDesc_perm (filledSpecial draws maxS)).mem_iff.mp ?_
      rw [hL]
      exact List.mem_cons_self a tl
    have hak : a.1 ∈ keys (filledSpecial draws maxS) := List.mem_map_of_mem _ ha
    show 1 ≤ a.1 ∧ a.1 ≤ maxS
    rcases (fillRange_keys_mem _ _ a.1).mp hak with hin | hrange
    · exact tabulate_special_range draws maxS hs a.1 hin
    · exact hrange

theorem findOptimizedNumbers_shape (pf : List (List (Nat × Nat))) (sf : List (Nat × Nat))
    (ec : List (List Nat)) (h5 : pf.length = 5) :
    (findOptimizedNumbers pf sf ec).length = 6 ∧
    ((findOptimizedNumbers pf sf ec).take 5).Pairwise (· ≤ ·) ∧
    (findOptimizedNumbers pf sf ec).getD 5 0 = bestSpecialBall sf := by
  have hAflen : (stratALoop pf (existingRegularSets ec) 100 0 (baselineByPosition pf)).length = 5 := by
    rw [stratALoop_length]
    unfold baselineByPosition
    rw [List.length_map, h5]
  have hXlen :
      (sortAsc ((stratALoop pf (existingRegularSets ec) 100 0 (baselineByPosition pf)).take 5)).length
        = 5 := by
    rw [sortAsc_length, List.length_take, hAflen]
    omega
  unfold findOptimizedNumbers
  refine ⟨?_, ?_, ?_⟩
  · rw [List.length_append, hXlen]
    rfl
  · rw [take_append_exact _ _ hXlen]
    exact sortAsc_sorted _
  · exact getD_append_last _ _ hXlen

theorem findOptimizedNumbersByGeneralFrequency_shape (pick : List Nat → Nat)
    (frequency specialBallFrequency : FreqMap) (ec : List (List Nat)) (maxR : Nat)
    (hk : (keys frequency).Nodup) (h5 : 5 ≤ frequency.length) :
    (findOptimizedNumbersByGeneralFrequency pick frequency specialBallFrequency ec maxR).length = 6 ∧
    ((findOptimizedNumbersByGeneralFrequency pick frequency specialBallFrequency ec maxR).take 5).Pairwise (· ≤ ·) ∧
    ((findOptimizedNumbersByGeneralFrequency pick frequency specialBallFrequency ec maxR).take 5).Nodup ∧
    (findOptimizedNumbersByGeneralFrequency pick frequency specialBallFrequency ec maxR).getD 5 0
      = bestSpecialBall (stableSortDesc specialBallFrequency) := by
  have hkfl : ((stableSortDesc frequency).map (·.1)).Nodup := by
    have hperm := (stableSortDesc_perm frequency).map (fun p : Nat × Nat => p.1)
    exact hperm.nodup_iff.mpr hk
  have hlfl : 5 ≤ (stableSortDesc frequency).length := by
    rw [(stableSortDesc_perm frequency).length_eq]
    exact h5
  have hmin : min 5 (stableSortDesc frequency).length = 5 := by omega
  have hinit : (List.range (min 5 (stableSortDesc frequency).length)).map
      (fun i => ((stableSortDesc frequency).getD i (0, 0)).1)
      = ((stableSortDesc frequency).map (·.1)).take 5 := by
    rw [hmin]
    exact rangeMap_getD_take _ 5 hlfl
  have hloop := stratBLoop_props pick (stableSortDesc frequency) (existingRegularSets ec)
      maxR hkfl hlfl 100 0
      (sortAsc ((List.range (min 5 (stableSortDesc frequency).length)).map
        (fun i => ((stableSortDesc frequency).getD i (0, 0)).1)))
      (by
        rw [hinit]
        exact sortAsc_nodup (hkfl.sublist (List.take_sublist _ _)))
      (by
        rw [hinit, sortAsc_length, List.length_take, List.length_map]
        omega)
      (sortAsc_sorted _)
      (by
        intro x hx
        rw [sortAsc_mem, hinit] at hx
        exact hx)
  unfold findOptimizedNumbersByGeneralFrequency
  dsimp only
  refine ⟨?_, ?_, ?_, ?_⟩
  · rw [List.length_append, hloop.2.1]
    rfl
  · rw [take_append_exact _ _ hloop.2.1]
    exact hloop.2.2
  · rw [take_append_exact _ _ hloop.2.1]
    exact hloop.1
  · exact getD_append_last _ _ hloop.2.1

/-- C5 (amended): for every input draw set and variant bounds with
`maxRegular ≥ 5` and `maxSpecial ≥ 1` whose draws carry special balls within
`[1, maxSpecial]`: both optimized combinations have exactly 6 integers; the
first 5 of each are sorted in non-decreasing order; the first 5 of
`optimizedByGeneralFrequency` are pairwise distinct; and the 6th element of
each lies within `[1, maxSpecial]`.  (Pairwise distinctness of the first 5 of
`optimizedByPosition` does not hold in general — see the counterexample —
so its first five are only non-decreasing, not strictly ascending.) -/
theorem c5_optimized_shape (pick : List Nat → Nat) (draws : List Draw) (t : String)
    (maxR maxS : Nat) (h5 : 5 ≤ maxR) (h1 : 1 ≤ maxS)
    (hs : ∀ d ∈ draws, ∀ s, d.specialBall = some s → s ≤ maxS) :
    (calculateStatsForType pick draws t maxR maxS).optimizedByPosition.length = 6 ∧
    (calculateStatsForType pick draws t maxR maxS).optimizedByGeneralFrequency.length = 6 ∧
    ((calculateStatsForType pick draws t maxR maxS).optimizedByPosition.take 5).Pairwise (· ≤ ·) ∧
    ((calculateStatsForType pick draws t maxR maxS).optimizedByGeneralFrequency.take 5).Pairwise (· ≤ ·) ∧
    ((calculateStatsForType pick draws t maxR maxS).optimizedByGeneralFrequency.take 5).Nodup ∧
    (1 ≤ (calculateStatsForType pick draws t maxR maxS).optimizedByPosition.getD 5 0 ∧
      (calculateStatsForType pick draws t maxR maxS).optimizedByPosition.getD 5 0 ≤ maxS) ∧
    (1 ≤ (calculateStatsForType pick draws t maxR maxS).optimizedByGeneralFrequency.getD 5 0 ∧
      (calculateStatsForType pick draws t maxR maxS).optimizedByGeneralFrequency.getD 5 0 ≤ maxS) := by
  have hpf : (positionFrequencies draws).length = 5 := by
    unfold positionFrequencies
    simp
  have hA := findOptimizedNumbers_shape (positionFrequencies draws)
      (stableSortDesc (filledSpecial draws maxS)) (tabulate draws).existingCombinations hpf
  have hkey : (keys (filledFrequency draws maxR)).Nodup :=
    fillRange_nodup_keys (tabulate_freq_nodup draws) maxR
  have hsub : [1, 2, 3, 4, 5] ⊆ keys (filledFrequency draws maxR) := by
    intro x hx
    have hx15 : 1 ≤ x ∧ x ≤ maxR := by
      have hx' : x = 1 ∨ x = 2 ∨ x = 3 ∨ x = 4 ∨ x = 5 := by simpa using hx
      omega
    exact (fillRange_keys_mem _ _ x).mpr (Or.inr hx15)
  have hlen5 : 5 ≤ (filledFrequency draws maxR).length := by
    have hnodup5 : ([1, 2, 3, 4, 5] : List Nat).Nodup := by decide
    have hsp := (hnodup5.subperm hsub).length_le
    simpa [keys] using hsp
  have hB := findOptimizedNumbersByGeneralFrequency_shape pick (filledFrequency draws maxR)
      (filledSpecial draws maxS) (tabulate draws).existingCombinations maxR hkey hlen5
  have hbest := bestSpecial_in_range draws maxS h1 hs
  have hAeq : (calculateStatsForType pick draws t maxR maxS).optimizedByPosition.getD 5 0
      = bestSpecialBall (stableSortDesc (filledSpecial draws maxS)) := hA.2.2
  have hBeq : (calculateStatsForType pick draws t maxR maxS).optimizedByGeneralFrequency.getD 5 0
      = bestSpecialBall (stableSortDesc (filledSpecial draws maxS)) := hB.2.2.2
  refine ⟨hA.1, hB.1, hA.2.1, hB.2.1, hB.2.2.1, ?_, ?_⟩
  · rw [hAeq]
    exact hbest
  · rw [hBeq]
    exact hbest

/-- C5 counterexample: with zero draws (every per-position frequency list is
empty, since per-position tables are never default-filled) Strategy A's
baseline defaults every slot to 1 and no perturbation occurs, so
`optimizedByPosition = [1, 1, 1, 1, 1, 1]`: its first five elements are
neither pairwise distinct nor strictly ascending. -/
theorem c5_counterexample :
    (calculateStatsForType pick0 [] "mega-millions" 70 25).optimizedByPosition
        = [1, 1, 1, 1, 1, 1] ∧
    ¬ ((calculateStatsForType pick0 [] "mega-millions" 70 25).optimizedByPosition.take 5).Nodup := by
  refine ⟨by decide, by decide⟩

/-- Witness instantiating `c5_optimized_shape` at a concrete draw set. -/
theorem c5_witness :
    (calculateStatsForType pick0 [⟨[1, 2, 3, 4, 5], some 2⟩] "t" 5 3).optimizedByPosition.length = 6 ∧
    (calculateStatsForType pick0 [⟨[1, 2, 3, 4, 5], some 2⟩] "t" 5 3).optimizedByGeneralFrequency.length = 6 ∧
    ((calculateStatsForType pick0 [⟨[1, 2, 3, 4, 5], some 2⟩] "t" 5 3).optimizedByPosition.take 5).Pairwise (· ≤ ·) ∧
    ((calculateStatsForType pick0 [⟨[1, 2, 3, 4, 5], some 2⟩] "t" 5 3).optimizedByGeneralFrequency.take 5).Pairwise (· ≤ ·) ∧
    ((calculateStatsForType pick0 [⟨[1, 2, 3, 4, 5], some 2⟩] "t" 5 3).optimizedByGeneralFrequency.take 5).Nodup ∧
    (1 ≤ (calculateStatsForType pick0 [⟨[1, 2, 3, 4, 5], some 2⟩] "t" 5 3).optimizedByPosition.getD 5 0 ∧
      (calculateStatsForType pick0 [⟨[1, 2, 3, 4, 5], some 2⟩] "t" 5 3).optimizedByPosition.getD 5 0 ≤ 3) ∧
    (1 ≤ (calculateStatsForType pick0 [⟨[1, 2, 3, 4, 5], some 2⟩] "t" 5 3).optimizedByGeneralFrequency.getD 5 0 ∧
      (calculateStatsForType pick0 [⟨[1, 2, 3, 4, 5], some 2⟩] "t" 5 3).optimizedByGeneralFrequency.getD 5 0 ≤ 3) :=
  c5_optimized_shape pick0 [⟨[1, 2, 3, 4, 5], some 2⟩] "t" 5 3 (by decide) (by decide)
    (by
      intro d hd s hsd
      rcases List.mem_singleton.mp hd with rfl
      have hs2 := Option.some.inj hsd
      omega)
